import Mathlib

/-!
Verification of the MSLD (Multi-Scale Line Detector) implementation in
`src/msld.py` (class `MSLD` and the free function `dice`).

Embedding conventions:
* numpy float arrays are idealized as exact rational matrices
  (`Mat := List (List ℚ)`), row major, so that every definition is
  executable and every concrete evaluation is decidable;
* IEEE special values, which the code really produces (0/0, division by a
  zero standard deviation, the `np.inf` threshold prepended by
  `sklearn.roc_curve`), are modelled explicitly by the type `PyF`
  (`num q`, `inf`, `negInf`, `nan`) with IEEE arithmetic rules;
* python exceptions are modelled by `Except PyErr`; the extra error
  `irrationalStd` marks the one place where the exact-rational idealization
  is partial: `np.std` takes a real square root, and the embedding is
  defined only where that root is rational (`ratSqrt`).  All theorems and
  witnesses below stay inside that domain;
* the mutable attributes of an `MSLD` instance (`self.threshold`,
  `self.y_true`) are threaded through an explicit state record; methods
  that assign to `self` return the new state.
-/

/-- Model of a python/numpy float: a rational or one of the IEEE special
values actually produced by the code (`inf` from `sklearn`, `nan` from
0/0 divisions). -/
inductive PyF where
  | num : ℚ → PyF
  | inf : PyF
  | negInf : PyF
  | nan : PyF
deriving DecidableEq, Repr

/-- Python exceptions that the modelled code can raise.  `irrationalStd` is
not a python exception: it marks the inputs on which the exact-rational
embedding of `np.std` (a real square root) is undefined. -/
inductive PyErr where
  | valueError : PyErr
  | indexError : PyErr
  | keyError : PyErr
  | zeroDivisionError : PyErr
  | irrationalStd : PyErr
deriving DecidableEq, Repr

deriving instance DecidableEq for Except

namespace PyF

/-- IEEE negation. -/
def neg : PyF → PyF
  | num q => num (-q)
  | inf => negInf
  | negInf => inf
  | nan => nan

/-- IEEE addition (nan absorbs; inf + (-inf) = nan). -/
def add : PyF → PyF → PyF
  | nan, _ => nan
  | _, nan => nan
  | inf, negInf => nan
  | negInf, inf => nan
  | inf, _ => inf
  | _, inf => inf
  | negInf, _ => negInf
  | _, negInf => negInf
  | num a, num b => num (a + b)

/-- IEEE subtraction. -/
def sub (a b : PyF) : PyF := add a (neg b)

/-- IEEE multiplication (inf * 0 = nan). -/
def mul : PyF → PyF → PyF
  | nan, _ => nan
  | _, nan => nan
  | inf, inf => inf
  | inf, negInf => negInf
  | negInf, inf => negInf
  | negInf, negInf => inf
  | inf, num b => if b = 0 then nan else if 0 < b then inf else negInf
  | num a, inf => if a = 0 then nan else if 0 < a then inf else negInf
  | negInf, num b => if b = 0 then nan else if 0 < b then negInf else inf
  | num a, negInf => if a = 0 then nan else if 0 < a then negInf else inf
  | num a, num b => num (a * b)

/-- IEEE division as numpy performs it on floats: x/0 is `inf`, `negInf`
or `nan` (with a runtime warning, not an exception). -/
def div : PyF → PyF → PyF
  | nan, _ => nan
  | _, nan => nan
  | inf, inf => nan
  | inf, negInf => nan
  | negInf, inf => nan
  | negInf, negInf => nan
  | inf, num b => if 0 ≤ b then inf else negInf
  | negInf, num b => if 0 ≤ b then negInf else inf
  | num _, inf => num 0
  | num _, negInf => num 0
  | num a, num b =>
      if b = 0 then (if a = 0 then nan else if 0 < a then inf else negInf)
      else num (a / b)

/-- Strict order on non-nan floats; every comparison with nan is false. -/
def lt : PyF → PyF → Bool
  | nan, _ => false
  | _, nan => false
  | num a, num b => decide (a < b)
  | num _, inf => true
  | negInf, num _ => true
  | negInf, inf => true
  | _, _ => false

/-- IEEE `>=` comparison; false whenever nan is involved. -/
def ge : PyF → PyF → Bool
  | nan, _ => false
  | _, nan => false
  | num a, num b => decide (b ≤ a)
  | inf, _ => true
  | _, negInf => true
  | _, _ => false

end PyF

/-- Rational matrix (numpy 2-D float array, row major). -/
abbrev Mat := List (List ℚ)

/-- Matrix of python floats (may contain the IEEE specials). -/
abbrev MatP := List (List PyF)

/-- Width of a matrix: length of its first row (numpy arrays are
rectangular; all definitions build rectangular lists). -/
def matW (m : List (List α)) : ℕ := (m.headD []).length

/-- Build an `h × w` matrix from an entry function. -/
def genMat (h w : ℕ) (f : ℕ → ℕ → α) : List (List α) :=
  (List.range h).map (fun i => (List.range w).map (f i))

/-- Entry access with a default (numpy indexing in our theorems is always
in range; the default only totalizes the function). -/
def entry (m : List (List ℚ)) (i j : ℕ) : ℚ := (m.getD i []).getD j 0

/-- Sum of all entries of a rational matrix. -/
def sumEntries (m : Mat) : ℚ := (m.map List.sum).sum

/-- The `h × w` rational zero matrix (`np.zeros`). -/
def zerosQ (h w : ℕ) : Mat := genMat h w (fun _ _ => 0)

/-- The `h × w` float zero matrix (`np.zeros`). -/
def zerosP (h w : ℕ) : MatP := genMat h w (fun _ _ => PyF.num 0)

/-- Rational matrix viewed as a float matrix. -/
def toPyF (m : Mat) : MatP := m.map (fun row => row.map PyF.num)

/-- Elementwise float addition (`+` on same-shape numpy arrays). -/
def matAddP (a b : MatP) : MatP := List.zipWith (List.zipWith PyF.add) a b

/-- Scalar times float matrix (`coefficient * array`). -/
def matScaleP (c : ℚ) (m : MatP) : MatP :=
  m.map (fun row => row.map (fun x => PyF.mul (PyF.num c) x))

/-- Elementwise rational subtraction. -/
def matSubQ (a b : Mat) : Mat := List.zipWith (List.zipWith (· - ·)) a b

/-- Elementwise maximum (`np.maximum`). -/
def matMaxQ (a b : Mat) : Mat := List.zipWith (List.zipWith max) a b

/-- Index folding of scipy's default boundary mode `reflect`
(`d c b a | a b c d | d c b a`): fold an arbitrary integer index into
`[0, n)`. -/
def reflectIdx (n : ℕ) (x : ℤ) : ℕ :=
  if n = 0 then 0
  else if (x % (2 * n)).toNat < n then (x % (2 * n)).toNat
  else 2 * n - 1 - (x % (2 * n)).toNat

/-- Model of `scipy.ndimage.convolve(img, ker)` with the default reflect mode:
true convolution (flipped kernel) centered at `ker_size / 2`, output shape
equal to the input shape. -/
def conv (img ker : Mat) : Mat :=
  let h := img.length
  let w := matW img
  let kh := ker.length
  let kw := matW ker
  genMat h w (fun i j =>
    ((List.range kh).map (fun a =>
      ((List.range kw).map (fun b =>
        entry ker a b *
          entry img (reflectIdx h ((i : ℤ) + (kh / 2 : ℕ) - a))
            (reflectIdx w ((j : ℤ) + (kw / 2 : ℕ) - b)))).sum)).sum)

/-- Model of `np.mean` on a list of rationals (population mean). -/
def npMean (xs : List ℚ) : ℚ := xs.sum / xs.length

/-- Population variance, i.e. the square of `np.std` (ddof = 0). -/
def npVariance (xs : List ℚ) : ℚ :=
  ((xs.map (fun x => (x - npMean xs) ^ 2)).sum) / xs.length

/-- Exact rational square root when it exists: the embedding of `np.std`
is defined exactly on the inputs whose variance is a square in ℚ. -/
def ratSqrt (q : ℚ) : Option ℚ :=
  if q < 0 then none
  else
    let sn := Nat.sqrt q.num.toNat
    let sd := Nat.sqrt q.den
    if sn * sn = q.num.toNat ∧ sd * sd = q.den then some ((sn : ℚ) / (sd : ℚ))
    else none

/-- Number of `true` entries of a boolean vector (`sum` of a bool array). -/
def countTrue (xs : List Bool) : ℕ := (xs.filter id).length

/-- Number of `true` entries of a 2-D boolean array. -/
def countTrue2 (m : List (List Bool)) : ℕ := (m.map countTrue).sum

/-- A matrix is rectangular with `h` rows of length `w`. -/
def IsRect (h w : ℕ) (m : List (List α)) : Prop :=
  m.length = h ∧ ∀ r ∈ m, r.length = w

/-! ### The MSLD instance state and datasets -/

/-- State of an `MSLD` instance: configuration `(W, L, n_orientation)`,
the average mask and the dictionary of oriented line-detector mask stacks
built by `__init__`, plus the two attributes that methods assign to:
`self.threshold` (set by `learn_threshold`, `0.5` initially) and
`self.y_true` (the label cache that `roc` stores on the instance; `none`
models the attribute not existing yet).  A stack `[l, l, n]` is stored as
the list of its `n` slices `[:, :, k]`. -/
structure MSLD where
  W : ℕ
  L : List ℕ
  n_orientation : ℕ
  threshold : PyF
  avg_mask : Mat
  line_detectors_masks : List (ℕ × List Mat)
  y_true : Option (List Bool)
deriving DecidableEq, Repr

/-- One dataset sample: the `{"image", "label", "mask"}` dictionary
(the intensity map actually fed to the detector, the ground-truth vessel
mask and the region-of-interest mask). -/
structure Sample where
  image : Mat
  label : List (List Bool)
  mask : List (List Bool)
deriving DecidableEq, Repr

/-! ### Mask factory (`MSLD.__init__`)

`__init__` builds, for every `l ∈ L`, the base kernel (an `l×l` zero
matrix whose row `l // 2` is constant `1/l`) and for every angle produced
by `range(0, 180, int(180 / n_orientation))` the kernel
`cv2.warpAffine(base, cv2.getRotationMatrix2D((l//2, l//2), angle, 1), (l, l))`
renormalized by its own sum.  `warpAffine` inverse-maps every destination
pixel through the rotation and resamples bilinearly with zero padding.
The rotation matrix entries are `cos θ` and `sin θ`, which are irrational
for the angles in question, so the resampling is embedded parametrically
in the pair `(α, β) = (cos θ, sin θ)`, constrained by `α² + β² = 1`:
every theorem below quantifies over all such pairs and therefore covers
every angle the constructor uses. -/

/-- The initial horizontal line detector of scale `l`:
`line_detector = np.zeros((l, l)); line_detector[l // 2, :] = 1 / l`. -/
def baseLineDetector (l : ℕ) : Mat :=
  genMat l l (fun i _ => if i = l / 2 then 1 / (l : ℚ) else 0)

/-- Source lookup with the `cv2.warpAffine` default zero border:
coordinates are `(x, y) = (column, row)`. -/
def srcAt (l : ℕ) (m : Mat) (x y : ℤ) : ℚ :=
  if 0 ≤ x ∧ x < (l : ℤ) ∧ 0 ≤ y ∧ y < (l : ℤ) then entry m y.toNat x.toNat else 0

/-- Source x-coordinate of the inverse rotation about the integer center
`c = l // 2` for destination pixel `(row i, column j)`, with
`(α, β) = (cos θ, sin θ)`. -/
def rotSrcX (l : ℕ) (α β : ℚ) (i j : ℕ) : ℚ :=
  α * ((j : ℚ) - (l / 2 : ℕ)) - β * ((i : ℚ) - (l / 2 : ℕ)) + (l / 2 : ℕ)

/-- Source y-coordinate of the inverse rotation about the center. -/
def rotSrcY (l : ℕ) (α β : ℚ) (i j : ℕ) : ℚ :=
  β * ((j : ℚ) - (l / 2 : ℕ)) + α * ((i : ℚ) - (l / 2 : ℕ)) + (l / 2 : ℕ)

/-- Bilinear resampling of the source image at fractional coordinates
`(sx, sy)`, with the `cv2.warpAffine` zero border. -/
def bilerp (l : ℕ) (m : Mat) (sx sy : ℚ) : ℚ :=
  (1 - (sx - ⌊sx⌋)) * (1 - (sy - ⌊sy⌋)) * srcAt l m ⌊sx⌋ ⌊sy⌋ +
    (sx - ⌊sx⌋) * (1 - (sy - ⌊sy⌋)) * srcAt l m (⌊sx⌋ + 1) ⌊sy⌋ +
    (1 - (sx - ⌊sx⌋)) * (sy - ⌊sy⌋) * srcAt l m ⌊sx⌋ (⌊sy⌋ + 1) +
    (sx - ⌊sx⌋) * (sy - ⌊sy⌋) * srcAt l m (⌊sx⌋ + 1) (⌊sy⌋ + 1)

/-- Model of `cv2.warpAffine(m, cv2.getRotationMatrix2D((l//2, l//2), θ, 1), (l, l))`
with bilinear interpolation, for `(α, β) = (cos θ, sin θ)`: each
destination pixel is pulled back through the inverse rotation about the
integer center `c = l // 2` and resampled bilinearly. -/
def warpAffineRot (l : ℕ) (α β : ℚ) (m : Mat) : Mat :=
  genMat l l (fun i j => bilerp l m (rotSrcX l α β i j) (rotSrcY l α β i j))

/-- One slice of the stack built by the constructor at scale `l` for the
rotation `(α, β) = (cos θ, sin θ)`:
`rotated_mask / rotated_mask.sum()` for
`rotated_mask = cv2.warpAffine(line_detector, r, (l, l))`. -/
def lineDetectorSlice (l : ℕ) (α β : ℚ) : Mat :=
  let rotated := warpAffineRot l α β (baseLineDetector l)
  let s := sumEntries rotated
  rotated.map (fun row => row.map (· / s))

/-- The angle list of the constructor loop
`for angle in range(0, 180, int(180 / self.n_orientation))`.
For `1 ≤ n ≤ 180` the float expression `int(180 / n)` equals natural
division `180 / n`; `n = 0` raises `ZeroDivisionError` and `n > 180`
makes the step `0`, which `range` rejects with a `ValueError`. -/
def rotationAngles (n : ℕ) : Except PyErr (List ℕ) :=
  if n = 0 then .error .zeroDivisionError
  else
    let step := 180 / n
    if step = 0 then .error .valueError
    else .ok ((List.range ((180 + step - 1) / step)).map (· * step))

/-- Number of slices stacked into `self.line_detectors_masks[l]` for a
given `n_orientation`: one per loop angle (the scale `l` does not enter). -/
def constructorStackDepth (n : ℕ) : Except PyErr ℕ :=
  (rotationAngles n).map List.length

/-! ### Basic Line Detector (`MSLD.basic_line_detector`) -/

/-- Model of `MSLD.basic_line_detector(grey_lvl, L)`:
`I_avg = convolve(grey_lvl, avg_mask)`; the per-orientation convolutions
are max-folded starting from `np.zeros(grey_lvl.shape)`;
`R = matrice_max - I_avg`; `R' = (R - np.mean(R)) / np.std(R)`.
When `np.std(R) = 0` (constant `R`) every numerator is also `0`, so numpy
returns an all-nan map; that case is returned as `.ok` of the nan matrix.
`irrationalStd` marks the inputs outside the exact-rational domain of the
square root, and missing dictionary keys or too few stacked slices give
the corresponding python errors. -/
def MSLD.basic_line_detector (st : MSLD) (grey_lvl : Mat) (L : ℕ) :
    Except PyErr MatP :=
  let h := grey_lvl.length
  let w := matW grey_lvl
  let I_avg := conv grey_lvl st.avg_mask
  match st.line_detectors_masks.lookup L with
  | none => .error .keyError
  | some stack =>
      if st.n_orientation ≤ stack.length then
        let matrice_max := (List.range st.n_orientation).foldl
          (fun acc n => matMaxQ (conv grey_lvl (stack.getD n [])) acc)
          (zerosQ h w)
        let R := matSubQ matrice_max I_avg
        let xs := R.flatten
        let μ := npMean xs
        let v := npVariance xs
        if v = 0 then .ok (genMat h w (fun _ _ => PyF.nan))
        else
          match ratSqrt v with
          | none => .error .irrationalStd
          | some s => .ok (R.map (fun row => row.map (fun x => PyF.num ((x - μ) / s))))
      else .error .indexError

/-! ### Multi-Scale Combiner (`MSLD.multi_scale_line_detector`) -/

/-- Model of `MSLD.multi_scale_line_detector(image)`:
`coefficient = 1 / (n_orientation + 1)`;
`Rcombined = np.zeros(image.shape)`; the loop accumulates
`Rcombined += basic_line_detector(image, L[i])` over `i = 0 .. len(L)-1`;
finally `Rcombined = coefficient * (Rcombined + image)`. -/
def MSLD.multi_scale_line_detector (st : MSLD) (image : Mat) :
    Except PyErr MatP :=
  let coefficient : ℚ := 1 / ((st.n_orientation : ℚ) + 1)
  (st.L.foldlM
      (fun acc l => (st.basic_line_detector image l).map (fun r => matAddP acc r))
      (zerosP image.length (matW image))).map
    (fun R => matScaleP coefficient (matAddP R (toPyF image)))

/-- The spec's combination rule, written exactly as stated:
`R_combined = (1 / (n_orientation + 1)) · (Σ_{l ∈ L} bld(image, l) + image)`
with the per-scale responses summed over `L` and the raw image added as
one extra term.  This definition follows the specification's words; the
theorem for claim C1 proves the code's accumulation loop equal to it. -/
def multiScaleCombinationFormula (st : MSLD) (image : Mat) :
    Except PyErr MatP :=
  (st.L.mapM (st.basic_line_detector image)).map
    (fun rs =>
      matScaleP (1 / ((st.n_orientation : ℚ) + 1))
        (matAddP (rs.foldr matAddP (zerosP image.length (matW image)))
          (toPyF image)))

/-! ### Segmenter (`MSLD.segment_vessels`)

Modelled from the spec: the body of `MSLD.segment_vessels` in
`src/msld.py` is the ellipsis placeholder `vessels = ...`; the definition
below follows spec §4.5 ("Computes `combine(image)`, compares every pixel
to the stored threshold, outputs a boolean map (`true` where response ≥
threshold)"). -/

/-- Modelled from the spec: `segment_vessels(image)` thresholds the
combined response map at `self.threshold` (the code body is the `...`
placeholder). -/
def MSLD.segment_vessels (st : MSLD) (image : Mat) :
    Except PyErr (List (List Bool)) :=
  (st.multi_scale_line_detector image).map
    (fun R => R.map (fun row => row.map (fun v => PyF.ge v st.threshold)))

/-! ### ROC computation (`MSLD.roc` and the `sklearn.metrics.roc_curve` model) -/

/-- Boolean-mask selection `label[mask]` on same-shape 2-D arrays:
row-major flattening of the entries where the mask is true. -/
def maskSelB (lab mask : List (List Bool)) : List Bool :=
  ((lab.zip mask).map (fun p =>
    (p.1.zip p.2).filterMap (fun q => if q.2 then some q.1 else none))).flatten

/-- Boolean-mask selection `prediction[mask]` for a float matrix. -/
def maskSelP (pred : MatP) (mask : List (List Bool)) : List PyF :=
  ((pred.zip mask).map (fun p =>
    (p.1.zip p.2).filterMap (fun q => if q.2 then some q.1 else none))).flatten

/-- Stable insertion of a scored pair into a list sorted by decreasing
score, with nan first (numpy's descending argsort order). -/
def insertDesc (x : PyF × Bool) : List (PyF × Bool) → List (PyF × Bool)
  | [] => [x]
  | y :: ys => if PyF.lt x.1 y.1 then y :: insertDesc x ys else x :: y :: ys

/-- Sort scored pairs by decreasing score (model of
`np.argsort(kind="mergesort")[::-1]` applied to scores and labels; within
a run of equal scores only cumulative counts at the run end are ever
used, so the tie order is irrelevant). -/
def sortDesc : List (PyF × Bool) → List (PyF × Bool)
  | [] => []
  | x :: xs => insertDesc x (sortDesc xs)

/-- Model of `_binary_clf_curve`: walk the pairs sorted by decreasing score and
record, at the last position of every run of equal scores, the cumulative
false-positive count, true-positive count and the score as the threshold:
exactly sklearn's `(fps, tps, thresholds)` triples, zipped. -/
def clfCurve : List (PyF × Bool) → ℕ → ℕ → List (ℕ × ℕ × PyF)
  | [], _, _ => []
  | (s, l) :: rest, tp, fp =>
      let tp1 := tp + (if l then 1 else 0)
      let fp1 := fp + (if l then 0 else 1)
      match rest with
      | [] => [(fp1, tp1, s)]
      | (s2, _) :: _ =>
          if s2 = s then clfCurve rest tp1 fp1
          else (fp1, tp1, s) :: clfCurve rest tp1 fp1

/-- sklearn's `drop_intermediate` step: when more than two points remain,
keep the first and last points and every middle point where the second
difference of `fps` or of `tps` is nonzero. -/
def dropIntermediate (pts : List (ℕ × ℕ × PyF)) : List (ℕ × ℕ × PyF) :=
  if pts.length ≤ 2 then pts
  else
    match pts with
    | [] => []
    | p0 :: rest =>
        let middles := ((pts.zip pts.tail).zip pts.tail.tail).filterMap
          (fun t =>
            let a := t.1.1
            let b := t.1.2
            let c := t.2
            if (a.1 : ℤ) - 2 * b.1 + c.1 ≠ 0 ∨ (a.2.1 : ℤ) - 2 * b.2.1 + c.2.1 ≠ 0
            then some b else none)
        p0 :: middles ++ [rest.getLastD p0]

/-- Model of `sklearn.metrics.roc_curve(y_true, y_score)` with its
default `drop_intermediate=True`: build the cumulative-count points,
drop collinear middle points, prepend the `(0, 0)` point with threshold
`np.inf`, then normalize by the final counts; when a class is absent the
corresponding rate vector is all-nan (sklearn warns and returns nan
there).  An empty input raises an `IndexError`
(`np.cumsum([])[-1]` inside `_binary_clf_curve`). -/
def rocCurve (yt : List Bool) (yp : List PyF) :
    Except PyErr (List PyF × List PyF × List PyF) :=
  if yt.length = 0 then .error .indexError
  else
    let pts := (0, 0, PyF.inf) :: dropIntermediate (clfCurve (sortDesc (yp.zip yt)) 0 0)
    let fpsLast := (pts.getLastD (0, 0, PyF.inf)).1
    let tpsLast := (pts.getLastD (0, 0, PyF.inf)).2.1
    let fpr := if fpsLast = 0 then pts.map (fun _ => PyF.nan)
      else pts.map (fun p => PyF.num ((p.1 : ℚ) / (fpsLast : ℚ)))
    let tpr := if tpsLast = 0 then pts.map (fun _ => PyF.nan)
      else pts.map (fun p => PyF.num ((p.2.1 : ℚ) / (tpsLast : ℚ)))
    .ok (fpr, tpr, pts.map (fun p => p.2.2))

/-- The concatenation of the ROI-restricted ground-truth labels of a
dataset: the vector `y_true` that `roc` builds and stores on the
instance. -/
def rocLabels (ds : List Sample) : List Bool :=
  (ds.map (fun d => maskSelB d.label d.mask)).flatten

/-- Model of `MSLD.roc(dataset)`: per sample, compute the combined response map,
select the ROI pixels of the label and of the prediction, concatenate
them over the dataset (`np.concatenate` of an empty list raises a
`ValueError`, before any attribute assignment), store the concatenated
labels in `self.y_true`, then call `roc_curve`.  The returned pair is
(new instance state, result). -/
def MSLD.roc (st : MSLD) (dataset : List Sample) :
    MSLD × Except PyErr (List PyF × List PyF × List PyF) :=
  match dataset with
  | [] => (st, .error .valueError)
  | _ =>
      match dataset.mapM (fun d =>
          (st.multi_scale_line_detector d.image).map
            (fun pred => (maskSelB d.label d.mask, maskSelP pred d.mask))) with
      | .error e => (st, .error e)
      | .ok pairs =>
          let yt := (pairs.map (fun p => p.1)).flatten
          let yp := (pairs.map (fun p => p.2)).flatten
          ({ st with y_true := some yt }, rocCurve yt yp)

/-- Scan of `np.argmax`: index of the first maximum; nan counts as maximal, so
the index of the first nan is returned when one is present. -/
def npArgmaxGo (best : PyF) (bi i : ℕ) : List PyF → ℕ
  | [] => bi
  | x :: xs =>
      if best = PyF.nan then bi
      else if x = PyF.nan then i
      else if PyF.lt best x then npArgmaxGo x i (i + 1) xs
      else npArgmaxGo best bi (i + 1) xs

/-- Model of `np.argmax` over a nonempty vector (`np.argmax([])` raises, handled
at the call site). -/
def npArgmax : List PyF → ℕ
  | [] => 0
  | x :: xs => npArgmaxGo x 0 1 xs

/-- Model of `MSLD.learn_threshold(dataset)`:
`fpr, tpr, thresholds = self.roc(dataset)`;
`accuracies = [(tpr_i * sum(self.y_true) + (1 - fpr_i) * (len(self.y_true) - sum(self.y_true))) / len(self.y_true) ...]`;
`best = np.argmax(accuracies)`; store `thresholds[best]` in
`self.threshold` and return it with `accuracies[best]`. -/
def MSLD.learn_threshold (st : MSLD) (dataset : List Sample) :
    MSLD × Except PyErr (PyF × PyF) :=
  let r := st.roc dataset
  let st1 := r.1
  match r.2 with
  | .error e => (st1, .error e)
  | .ok (fpr, tpr, thresholds) =>
      let yt := st1.y_true.getD []
      let s := countTrue yt
      let n := yt.length
      let accuracies := (tpr.zip fpr).map (fun p =>
        PyF.div
          (PyF.add (PyF.mul p.1 (PyF.num s))
            (PyF.mul (PyF.sub (PyF.num 1) p.2) (PyF.num (n - s))))
          (PyF.num n))
      if accuracies = [] then (st1, .error .valueError)
      else
        let best := npArgmax accuracies
        let thr := thresholds.getD best PyF.nan
        let acc := accuracies.getD best PyF.nan
        ({ st1 with threshold := thr }, .ok (thr, acc))

/-! ### Dice coefficient (free function `dice`) -/

/-- The free function `dice(targets, predictions)`:
`2 * np.sum(targets * predictions) / (targets.sum() + predictions.sum())`
on boolean arrays; when both arrays are all-false the integer division
`0 / 0` yields nan (numpy warns, it does not raise). -/
def dice (targets predictions : List (List Bool)) : PyF :=
  let inter := countTrue2 (List.zipWith (List.zipWith and) targets predictions)
  let denom := countTrue2 targets + countTrue2 predictions
  if denom = 0 then PyF.nan
  else PyF.num (2 * (inter : ℚ) / (denom : ℚ))

/-! ### Concrete instances used by witnesses and counterexamples

`msldW1` is the state that `MSLD(W=1, L=[3], n_orientation=1)` builds:
`avg_mask = [[1]]` and, since the only rotation angle is `0` (an exact
identity warp), the single stack slice at scale 3 is the base kernel
itself.  All responses of this configuration are rational, so the
embedding evaluates everywhere on it. -/

/-- The `MSLD(W=1, L=[3], n_orientation=1)` instance state, with the
default threshold `0.5` and the `y_true` attribute not yet set. -/
def msldW1 : MSLD :=
  { W := 1, L := [3], n_orientation := 1, threshold := PyF.num (1 / 2),
    avg_mask := [[1]],
    line_detectors_masks := [(3, [[[0, 0, 0], [1/3, 1/3, 1/3], [0, 0, 0]]])],
    y_true := none }

/-- A one-sample dataset whose ROI labels are all positive (single
class). -/
def dsAllPos : List Sample :=
  [{ image := [[0, 1]], label := [[true, true]], mask := [[true, true]] }]

/-- A one-sample dataset containing both classes. -/
def dsMixed : List Sample :=
  [{ image := [[0, 1]], label := [[false, true]], mask := [[true, true]] }]

/-- Pure-rational counterpart of `np.argmax`'s scan (used to state the
first-maximum property of the selected index). -/
def argmaxQGo (best : ℚ) (bi i : ℕ) : List ℚ → ℕ
  | [] => bi
  | x :: xs => if best < x then argmaxQGo x i (i + 1) xs else argmaxQGo best bi (i + 1) xs

/-- The first index attaining the maximum of a rational vector (0 on the
empty vector); `np.argmax` on a nan-free vector computes exactly this. -/
def firstMaxIdx : List ℚ → ℕ
  | [] => 0
  | x :: xs => argmaxQGo x 0 1 xs

theorem genMat_isRect (h w : ℕ) (f : ℕ → ℕ → α) : IsRect h w (genMat h w f) := by
  constructor
  · simp [genMat]
  · intro r hr
    simp only [genMat, List.mem_map] at hr
    obtain ⟨i, _, rfl⟩ := hr
    simp

theorem zipWith_isRect {h w : ℕ} {a b : List (List α)} (f : α → α → α)
    (ha : IsRect h w a) (hb : IsRect h w b) :
    IsRect h w (List.zipWith (List.zipWith f) a b) := by
  obtain ⟨ha1, ha2⟩ := ha
  obtain ⟨hb1, hb2⟩ := hb
  constructor
  · simp [ha1, hb1]
  · intro r hr
    rw [List.mem_iff_getElem] at hr
    obtain ⟨i, hi, rfl⟩ := hr
    simp only [List.getElem_zipWith]
    rw [List.length_zipWith] at hi
    have hia : i < a.length := lt_of_lt_of_le hi (min_le_left _ _)
    have hib : i < b.length := lt_of_lt_of_le hi (min_le_right _ _)
    rw [List.length_zipWith, ha2 _ (a.getElem_mem hia), hb2 _ (b.getElem_mem hib)]
    exact min_self w

theorem map_isRect {h w : ℕ} {m : List (List α)} (f : α → β)
    (hm : IsRect h w m) : IsRect h w (m.map (fun row => row.map f)) := by
  obtain ⟨h1, h2⟩ := hm
  refine ⟨by simp [h1], ?_⟩
  intro r hr
  simp only [List.mem_map] at hr
  obtain ⟨row, hrow, rfl⟩ := hr
  simp [h2 row hrow]

theorem conv_isRect (img ker : Mat) : IsRect img.length (matW img) (conv img ker) :=
  genMat_isRect _ _ _

theorem zerosQ_isRect (h w : ℕ) : IsRect h w (zerosQ h w) := genMat_isRect _ _ _

theorem zerosP_isRect (h w : ℕ) : IsRect h w (zerosP h w) := genMat_isRect _ _ _

/-! ### C3 — constructor mask-stack shape -/

/-- C3: the claim says that for every valid configuration with
`n_orientation ≥ 1` the constructor builds, for each `l ∈ L`, a stack of
exactly `n_orientation` slices at angles `k · 180 / n_orientation`.  The
code iterates `range(0, 180, int(180 / n_orientation))`: for
`n_orientation = 7` this yields the 8 angles `0, 25, …, 175`, so the
stack has shape `(l, l, 8)`, not `(l, l, 7)` as the claim (and the
constructor's own comment) state, and the angle step is `25°`, not
`180/7°`. -/
theorem constructor_stack_depth_mismatch_at_seven :
    rotationAngles 7 = .ok [0, 25, 50, 75, 100, 125, 150, 175] ∧
      constructorStackDepth 7 = .ok 8 ∧
      constructorStackDepth 7 ≠ .ok 7 ∧
      (25 : ℚ) ≠ 180 / 7 := by
  refine ⟨by decide, by decide, by decide, by norm_num⟩

/-! ### C9 — dice on two all-false arrays -/

/-- C9 counterexample: on two all-false arrays `dice` does not return
`1.0`; it evaluates `0 / 0`, i.e. nan. -/
theorem dice_all_false_not_one :
    dice [[false]] [[false]] ≠ PyF.num 1 ∧ dice [[false]] [[false]] = PyF.nan := by
  decide

/-- C9 amended: for every pair of all-false boolean arrays, `dice`
returns nan — the undefined value `0 / 0` — rather than the claimed
`1.0`; nothing in the code special-cases the empty-overlap situation. -/
theorem dice_all_false_nan (targets predictions : List (List Bool))
    (ht : ∀ r ∈ targets, ∀ b ∈ r, b = false)
    (hp : ∀ r ∈ predictions, ∀ b ∈ r, b = false) :
    dice targets predictions = PyF.nan := by
  have hzero : ∀ (m : List (List Bool)), (∀ r ∈ m, ∀ b ∈ r, b = false) →
      countTrue2 m = 0 := by
    intro m hm
    refine List.sum_eq_zero ?_
    intro n hn
    rw [List.mem_map] at hn
    obtain ⟨r, hr, rfl⟩ := hn
    have hfil : r.filter id = [] := by
      rw [List.filter_eq_nil_iff]
      intro b hb
      simp [hm r hr b hb]
    simp [countTrue, hfil]
  simp [dice, hzero targets ht, hzero predictions hp]

/-- C9 witness: the amended statement applied to the concrete pair of
all-false arrays. -/
theorem dice_all_false_nan_witness :
    dice [[false, false], [false, false]] [[false, false], [false, false]] = PyF.nan :=
  dice_all_false_nan _ _ (by decide) (by decide)

/-! ### C7 — behaviour on empty and single-class datasets -/

/-- C7 counterexample: on a concrete dataset whose ROI labels are all
positive (one class only), `roc` does not fail at all — it returns a
curve — so no `DegenerateDatasetError` (a type that does not exist in
the code) is raised. -/
theorem roc_single_class_succeeds :
    (msldW1.roc dsAllPos).2.isOk = true := by with_unfolding_all decide

/-- C7 amended: on an empty dataset `roc` (and therefore
`learn_threshold`) fails, but with the generic `ValueError` that
`np.concatenate` raises on an empty list — the code defines no
`DegenerateDatasetError`; and on a single-class dataset neither
operation fails: `roc` returns the curve with the absent class's rate
vector all-nan, and `learn_threshold` returns the threshold
`np.inf` with an all-nan accuracy instead of raising. -/
theorem roc_empty_and_single_class_behaviour :
    (∀ st : MSLD, st.roc [] = (st, .error .valueError)) ∧
      (msldW1.roc dsAllPos).2 =
        .ok ([PyF.nan, PyF.nan, PyF.nan],
          [PyF.num 0, PyF.num (1 / 2), PyF.num 1],
          [PyF.inf, PyF.num (1 / 2), PyF.num 0]) ∧
      (msldW1.learn_threshold dsAllPos).2 = .ok (PyF.inf, PyF.nan) := by
  refine ⟨fun st => rfl, by with_unfolding_all decide, by with_unfolding_all decide⟩

/-! ### C8 — which fields the core operations mutate -/

/-- C8 counterexample: `roc` does mutate the instance: on `msldW1`
(whose `y_true` attribute is unset) it stores the concatenated ROI
labels in `self.y_true`, so the state after `roc` differs from the
state before. -/
theorem roc_mutates_y_true_cache :
    (msldW1.roc dsAllPos).1 ≠ msldW1 ∧
      (msldW1.roc dsAllPos).1.y_true = some [true, true] ∧
      msldW1.y_true = none := by
  refine ⟨by with_unfolding_all decide, by with_unfolding_all decide, rfl⟩

/-- C8 amended: the core operations mutate exactly two fields:
`roc` assigns the `y_true` label cache (and nothing else), and
`learn_threshold` assigns the stored threshold and — through its call to
`roc` — the same `y_true` cache; configuration, masks and all other
fields are left unchanged by both.  (`basic_line_detector`,
`multi_scale_line_detector` and `segment_vessels` are pure functions of
the state in this embedding, as in the code, which never assigns to
`self` in them.) -/
theorem roc_state_frame (st : MSLD) (ds : List Sample) :
    (st.roc ds).1 = { st with y_true := (st.roc ds).1.y_true } := by
  unfold MSLD.roc
  cases ds with
  | nil => rfl
  | cons d rest =>
      cases hm : (d :: rest).mapM (fun d =>
          (st.multi_scale_line_detector d.image).map
            (fun pred => (maskSelB d.label d.mask, maskSelP pred d.mask))) with
      | error e => simp [hm]
      | ok pairs => simp [hm]

theorem learn_threshold_state_frame (st : MSLD) (ds : List Sample) :
    (st.learn_threshold ds).1 =
      { st with threshold := (st.learn_threshold ds).1.threshold,
                y_true := (st.learn_threshold ds).1.y_true } := by
  unfold MSLD.learn_threshold
  cases hr : (st.roc ds).2 with
  | error e =>
      simp only [hr]
      rw [roc_state_frame]
  | ok triple =>
      obtain ⟨fpr, tpr, thresholds⟩ := triple
      simp only [hr]
      split
      · rw [roc_state_frame]
      · simp only []
        rw [roc_state_frame]

theorem core_mutation_frame (st : MSLD) (ds : List Sample) :
    (st.roc ds).1 = { st with y_true := (st.roc ds).1.y_true } ∧
      (st.learn_threshold ds).1 =
        { st with threshold := (st.learn_threshold ds).1.threshold,
                  y_true := (st.learn_threshold ds).1.y_true } :=
  ⟨roc_state_frame st ds, learn_threshold_state_frame st ds⟩

/-! ### C4 — basic_line_detector on constant input -/

theorem genMat_length (h w : ℕ) (f : ℕ → ℕ → α) : (genMat h w f).length = h := by
  simp [genMat]

theorem matW_genMat (h w : ℕ) (f : ℕ → ℕ → α) (hh : 0 < h) :
    matW (genMat h w f) = w := by
  cases h with
  | zero => omega
  | succ n => simp [genMat, matW, List.range_succ_eq_map]

theorem entry_genMat (h w : ℕ) (f : ℕ → ℕ → ℚ) (i j : ℕ) (hi : i < h) (hj : j < w) :
    entry (genMat h w f) i j = f i j := by
  simp [entry, genMat, List.getD_eq_getElem?_getD, List.getElem?_map,
    List.getElem?_range, hi, hj]

theorem reflectIdx_lt (n : ℕ) (x : ℤ) (hn : 0 < n) : reflectIdx n x < n := by
  unfold reflectIdx
  rw [if_neg (by omega)]
  have h2n : (0 : ℤ) < 2 * n := by positivity
  have hm : (x % (2 * n)).toNat < 2 * n := by
    have h1 := Int.emod_nonneg x (by positivity : (2 * (n : ℤ)) ≠ 0)
    have h2 := Int.emod_lt_of_pos x h2n
    omega
  split <;> omega

theorem genMat_congr {f g : ℕ → ℕ → α} (h w : ℕ)
    (he : ∀ i j, i < h → j < w → f i j = g i j) : genMat h w f = genMat h w g := by
  unfold genMat
  refine List.map_congr_left (fun i hi => ?_)
  rw [List.mem_range] at hi
  refine List.map_congr_left (fun j hj => ?_)
  rw [List.mem_range] at hj
  exact he i j hi hj

theorem zipWith_genMat (g : ℚ → ℚ → ℚ) (f f1 : ℕ → ℕ → ℚ) (h w : ℕ) :
    List.zipWith (List.zipWith g) (genMat h w f) (genMat h w f1) =
      genMat h w (fun i j => g (f i j) (f1 i j)) := by
  refine List.ext_getElem (by simp [genMat]) ?_
  intro i h1 h2
  simp only [genMat, List.getElem_zipWith, List.getElem_map, List.getElem_range]
  refine List.ext_getElem (by simp) ?_
  intro j g1 g2
  simp [List.getElem_zipWith]

/-- Convolving a constant map gives a constant map (the kernel sum times
the constant): with the `reflect` boundary every tap lands inside the
image. -/
theorem conv_constMat (c : ℚ) (ker : Mat) (h w : ℕ) (hh : 0 < h) (hw : 0 < w) :
    conv (genMat h w (fun _ _ => c)) ker =
      genMat h w (fun _ _ =>
        ((List.range ker.length).map (fun a =>
          ((List.range (matW ker)).map (fun b => entry ker a b * c)).sum)).sum) := by
  simp only [conv, genMat_length, matW_genMat h w (fun _ _ => c) hh]
  refine genMat_congr h w (fun i j hi hj => ?_)
  refine congrArg _ (List.map_congr_left (fun a _ => ?_))
  refine congrArg _ (List.map_congr_left (fun b _ => ?_))
  rw [entry_genMat _ _ _ _ _ (reflectIdx_lt _ _ hh) (reflectIdx_lt _ _ hw)]

theorem flatten_genMat_const (h w : ℕ) (r : ℚ) :
    (genMat h w (fun _ _ => r)).flatten = List.replicate (h * w) r := by
  induction h with
  | zero => simp [genMat]
  | succ n ih =>
      rw [genMat, List.range_succ, List.map_append, List.flatten_append]
      rw [genMat] at ih
      simp only [ih, List.map_cons, List.map_nil, List.flatten_cons, List.flatten_nil]
      rw [List.map_const', List.length_range, List.append_nil,
        ← List.replicate_add]
      ring_nf

theorem npMean_replicate (n : ℕ) (r : ℚ) (hn : 0 < n) :
    npMean (List.replicate n r) = r := by
  unfold npMean
  rw [List.sum_replicate, List.length_replicate, nsmul_eq_mul, mul_comm,
    mul_div_assoc, div_self (by positivity : ((n : ℚ) ≠ 0)), mul_one]

theorem npVariance_replicate (n : ℕ) (r : ℚ) (hn : 0 < n) :
    npVariance (List.replicate n r) = 0 := by
  unfold npVariance
  rw [List.map_replicate, npMean_replicate n r hn]
  simp

/-- C4 amended: on every constant (zero-variance) input map the raw
response `R = matrice_max - I_avg` is constant, `np.std(R)` is zero, and
the standardization `(R - mean(R)) / std(R)` evaluates `0 / 0` at every
pixel: the code returns the all-nan map — it neither guards the zero
standard deviation nor returns the all-zero map the claim describes
(nothing raises, so the nan map silently propagates). -/
theorem basic_line_detector_constant_nan (st : MSLD) (h w L : ℕ) (c : ℚ)
    (stack : List Mat)
    (hlk : st.line_detectors_masks.lookup L = some stack)
    (hn : st.n_orientation ≤ stack.length)
    (hh : 0 < h) (hw : 0 < w) :
    st.basic_line_detector (genMat h w (fun _ _ => c)) L =
      .ok (genMat h w (fun _ _ => PyF.nan)) := by
  have hfold : ∀ (ls : List ℕ) (d : ℚ), ∃ e : ℚ,
      ls.foldl (fun acc n =>
          matMaxQ (conv (genMat h w (fun _ _ => c)) (stack.getD n [])) acc)
        (genMat h w (fun _ _ => d)) = genMat h w (fun _ _ => e) := by
    intro ls
    induction ls with
    | nil => exact fun d => ⟨d, rfl⟩
    | cons a as ih =>
        intro d
        simp only [List.foldl_cons]
        rw [conv_constMat c _ h w hh hw, matMaxQ, zipWith_genMat]
        exact ih _
  obtain ⟨e, he⟩ := hfold (List.range st.n_orientation) 0
  unfold MSLD.basic_line_detector
  rw [hlk]
  simp only [genMat_length, matW_genMat _ _ _ hh, if_pos hn]
  rw [show zerosQ h w = genMat h w (fun _ _ => (0 : ℚ)) from rfl, he,
    conv_constMat c _ h w hh hw, matSubQ, zipWith_genMat, flatten_genMat_const,
    npVariance_replicate _ _ (by positivity), if_pos rfl]

/-- C4 counterexample: on the concrete constant map `[[1/2, 1/2]]` the
`MSLD(W=1, L=[3], n_orientation=1)` instance returns the all-nan map,
not the all-zero response map the claim describes. -/
theorem basic_line_detector_constant_not_zero_map :
    msldW1.basic_line_detector [[1/2, 1/2]] 3 ≠ .ok (toPyF (zerosQ 1 2)) ∧
      msldW1.basic_line_detector [[1/2, 1/2]] 3 = .ok [[PyF.nan, PyF.nan]] := by
  constructor
  · with_unfolding_all decide
  · with_unfolding_all decide

/-- C4 witness: the amended statement applied to `msldW1` and the
constant `1 × 2` map of value `1/2`. -/
theorem basic_line_detector_constant_nan_witness :
    msldW1.basic_line_detector (genMat 1 2 (fun _ _ => 1/2)) 3 =
      .ok (genMat 1 2 (fun _ _ => PyF.nan)) :=
  basic_line_detector_constant_nan msldW1 1 2 3 (1/2) _ rfl (by decide)
    (by decide) (by decide)

/-! ### C6 — segment_vessels -/

theorem PyF.nan_ge (x : PyF) : PyF.ge PyF.nan x = false := by cases x <;> rfl

/-- C6 (definition modelled from the spec, since the code body is the
`...` placeholder): `segment_vessels` computes the combined response map
through `multi_scale_line_detector`, compares every pixel to the stored
threshold, and returns the boolean map of the same spatial shape that is
true exactly where the response is `≥` the threshold; it takes the state
read-only and returns no new state (no mutation, no side effects). -/
theorem segment_vessels_thresholds_response (st : MSLD) (image : Mat) (R : MatP)
    (hR : st.multi_scale_line_detector image = .ok R) :
    st.segment_vessels image =
        .ok (R.map (fun row => row.map (fun v => PyF.ge v st.threshold))) ∧
      (R.map (fun row => row.map (fun v => PyF.ge v st.threshold))).length = R.length ∧
      ∀ i j : ℕ,
        ((R.map (fun row => row.map (fun v => PyF.ge v st.threshold))).getD i []).getD j false =
          PyF.ge ((R.getD i []).getD j PyF.nan) st.threshold := by
  refine ⟨by simp [MSLD.segment_vessels, hR, Except.map], by simp, ?_⟩
  intro i j
  rw [List.getD_eq_getElem?_getD (R.map _) i, List.getElem?_map,
    List.getD_eq_getElem?_getD R i]
  cases hRi : R[i]? with
  | none =>
      rw [show (Option.map (fun row => List.map (fun v => PyF.ge v st.threshold) row)
        (none : Option (List PyF))).getD [] = ([] : List Bool) from rfl]
      simp [PyF.nan_ge]
  | some row =>
      rw [show (Option.map (fun row => List.map (fun v => PyF.ge v st.threshold) row)
        (some row)).getD [] = row.map (fun v => PyF.ge v st.threshold) from rfl,
        show Option.getD (some row) ([] : List PyF) = row from rfl,
        List.getD_eq_getElem?_getD (row.map _) j, List.getElem?_map,
        List.getD_eq_getElem?_getD row j]
      cases hrj : row[j]? with
      | none => simp [PyF.nan_ge]
      | some v => rfl

/-- C6 witness: the theorem applied to `msldW1` and the image
`[[0, 1]]`, whose combined response is `[[1/2, 0]]`; the segmentation
marks exactly the pixel whose response reaches the stored threshold
`0.5`. -/
theorem segment_vessels_thresholds_response_witness :
    msldW1.segment_vessels [[0, 1]] =
      .ok ([[PyF.num (1/2), PyF.num 0]].map
        (fun row => row.map (fun v => PyF.ge v msldW1.threshold))) :=
  (segment_vessels_thresholds_response msldW1 [[0, 1]]
    [[PyF.num (1/2), PyF.num 0]] (by with_unfolding_all decide)).1

/-! ### C5 and C10 — normalization and nonnegativity of the oriented masks -/

theorem mem_flatten_genMat {x : α} {h w : ℕ} {f : ℕ → ℕ → α}
    (hx : x ∈ (genMat h w f).flatten) : ∃ i j, i < h ∧ j < w ∧ x = f i j := by
  rw [List.mem_flatten] at hx
  obtain ⟨row, hrow, hxr⟩ := hx
  rw [genMat, List.mem_map] at hrow
  obtain ⟨i, hi, rfl⟩ := hrow
  rw [List.mem_map] at hxr
  obtain ⟨j, hj, rfl⟩ := hxr
  exact ⟨i, j, List.mem_range.mp hi, List.mem_range.mp hj, rfl⟩

theorem srcAt_nonneg (l : ℕ) (m : Mat) (x y : ℤ)
    (hm : ∀ i j, 0 ≤ entry m i j) : 0 ≤ srcAt l m x y := by
  unfold srcAt
  split
  · exact hm _ _
  · exact le_refl 0

theorem bilerp_nonneg (l : ℕ) (m : Mat) (sx sy : ℚ)
    (hm : ∀ i j, 0 ≤ entry m i j) : 0 ≤ bilerp l m sx sy := by
  have hx0 : 0 ≤ sx - ⌊sx⌋ := sub_nonneg.mpr (Int.floor_le sx)
  have hx1 : sx - ⌊sx⌋ ≤ 1 := by
    have := Int.lt_floor_add_one sx
    linarith
  have hy0 : 0 ≤ sy - ⌊sy⌋ := sub_nonneg.mpr (Int.floor_le sy)
  have hy1 : sy - ⌊sy⌋ ≤ 1 := by
    have := Int.lt_floor_add_one sy
    linarith
  unfold bilerp
  have h1 := srcAt_nonneg l m ⌊sx⌋ ⌊sy⌋ hm
  have h2 := srcAt_nonneg l m (⌊sx⌋ + 1) ⌊sy⌋ hm
  have h3 := srcAt_nonneg l m ⌊sx⌋ (⌊sy⌋ + 1) hm
  have h4 := srcAt_nonneg l m (⌊sx⌋ + 1) (⌊sy⌋ + 1) hm
  have t1 : (0:ℚ) ≤ (1 - (sx - ⌊sx⌋)) * (1 - (sy - ⌊sy⌋)) * srcAt l m ⌊sx⌋ ⌊sy⌋ := by
    apply mul_nonneg (mul_nonneg (by linarith) (by linarith)) h1
  have t2 : (0:ℚ) ≤ (sx - ⌊sx⌋) * (1 - (sy - ⌊sy⌋)) * srcAt l m (⌊sx⌋ + 1) ⌊sy⌋ := by
    apply mul_nonneg (mul_nonneg (by linarith) (by linarith)) h2
  have t3 : (0:ℚ) ≤ (1 - (sx - ⌊sx⌋)) * (sy - ⌊sy⌋) * srcAt l m ⌊sx⌋ (⌊sy⌋ + 1) := by
    apply mul_nonneg (mul_nonneg (by linarith) (by linarith)) h3
  have t4 : (0:ℚ) ≤ (sx - ⌊sx⌋) * (sy - ⌊sy⌋) * srcAt l m (⌊sx⌋ + 1) (⌊sy⌋ + 1) := by
    apply mul_nonneg (mul_nonneg (by linarith) (by linarith)) h4
  linarith

theorem mem_of_getElemQ {l : List α} {i : ℕ} {a : α} (h : l[i]? = some a) :
    a ∈ l := by
  rw [List.getElem?_eq_some_iff] at h
  obtain ⟨hlt, rfl⟩ := h
  exact List.getElem_mem hlt

theorem entry_nonneg_of_flatten (m : Mat) (hm : ∀ x ∈ m.flatten, 0 ≤ x) :
    ∀ i j, 0 ≤ entry m i j := by
  intro i j
  unfold entry
  rw [List.getD_eq_getElem?_getD m i]
  rcases h1 : m[i]? with _ | row
  · simp
  · simp only [Option.getD_some]
    rw [List.getD_eq_getElem?_getD row j]
    rcases h2 : row[j]? with _ | x
    · simp
    · simp only [Option.getD_some]
      apply hm
      rw [List.mem_flatten]
      exact ⟨row, mem_of_getElemQ h1, mem_of_getElemQ h2⟩

theorem baseLineDetector_entry_nonneg (l : ℕ) :
    ∀ i j, 0 ≤ entry (baseLineDetector l) i j := by
  refine entry_nonneg_of_flatten _ (fun x hx => ?_)
  obtain ⟨i, j, hi, hj, rfl⟩ := mem_flatten_genMat hx
  split
  · exact div_nonneg zero_le_one (Nat.cast_nonneg l)
  · exact le_refl 0

theorem genMat_entry_mem (h w : ℕ) (f : ℕ → ℕ → α) (i j : ℕ)
    (hi : i < h) (hj : j < w) : f i j ∈ (genMat h w f).flatten := by
  rw [List.mem_flatten]
  refine ⟨(List.range w).map (f i), ?_, ?_⟩
  · rw [genMat, List.mem_map]
    exact ⟨i, List.mem_range.mpr hi, rfl⟩
  · rw [List.mem_map]
    exact ⟨j, List.mem_range.mpr hj, rfl⟩

theorem bilerp_natCast (l : ℕ) (m : Mat) (c d : ℕ) :
    bilerp l m (c : ℚ) (d : ℚ) = srcAt l m c d := by
  unfold bilerp
  simp only [Int.floor_natCast]
  push_cast
  ring_nf

/-- The destination pixel at the rotation center is an exact bilinear hit
on the source center pixel, whose value in the base kernel is `1 / l`. -/
theorem warp_center_value (l : ℕ) (α β : ℚ) (hl : 1 ≤ l) :
    entry (warpAffineRot l α β (baseLineDetector l)) (l / 2) (l / 2) = 1 / l := by
  have hc : l / 2 < l := Nat.div_lt_self (by omega) one_lt_two
  rw [warpAffineRot, entry_genMat l l _ _ _ hc hc]
  rw [show rotSrcX l α β (l / 2) (l / 2) = ((l / 2 : ℕ) : ℚ) from by
      unfold rotSrcX; ring,
    show rotSrcY l α β (l / 2) (l / 2) = ((l / 2 : ℕ) : ℚ) from by
      unfold rotSrcY; ring]
  rw [bilerp_natCast]
  unfold srcAt
  rw [if_pos ⟨by positivity, by exact_mod_cast hc, by positivity, by exact_mod_cast hc⟩]
  simp only [Int.toNat_natCast]
  rw [baseLineDetector, entry_genMat l l _ _ _ hc hc, if_pos rfl]

theorem le_sumEntries (m : Mat) (x : ℚ) (hmem : x ∈ m.flatten)
    (hn : ∀ y ∈ m.flatten, 0 ≤ y) : x ≤ sumEntries m := by
  rw [List.mem_flatten] at hmem
  obtain ⟨row, hrow, hx⟩ := hmem
  have h1 : x ≤ row.sum :=
    List.single_le_sum
      (fun y hy => hn y (List.mem_flatten.mpr ⟨row, hrow, hy⟩)) x hx
  have h2 : row.sum ≤ sumEntries m := by
    unfold sumEntries
    refine List.single_le_sum (fun s hs => ?_) _
      (List.mem_map.mpr ⟨row, hrow, rfl⟩)
    rw [List.mem_map] at hs
    obtain ⟨r, hr, rfl⟩ := hs
    exact List.sum_nonneg (fun y hy => hn y (List.mem_flatten.mpr ⟨r, hr, hy⟩))
  linarith

theorem warp_entries_nonneg (l : ℕ) (α β : ℚ) :
    ∀ y ∈ (warpAffineRot l α β (baseLineDetector l)).flatten, 0 ≤ y := by
  intro y hy
  obtain ⟨i, j, _, _, rfl⟩ := mem_flatten_genMat hy
  exact bilerp_nonneg _ _ _ _ (baseLineDetector_entry_nonneg l)

/-- The rotated mask has positive total mass: its center pixel alone
carries `1 / l > 0` and every pixel is nonnegative, so
`rotated_mask.sum()` never vanishes and the renormalization divides by a
positive number. -/
theorem warp_sum_pos (l : ℕ) (α β : ℚ) (hl : 1 ≤ l) :
    0 < sumEntries (warpAffineRot l α β (baseLineDetector l)) := by
  have hc : l / 2 < l := Nat.div_lt_self (by omega) one_lt_two
  have hmem : bilerp l (baseLineDetector l)
      (rotSrcX l α β (l / 2) (l / 2)) (rotSrcY l α β (l / 2) (l / 2)) ∈
      (warpAffineRot l α β (baseLineDetector l)).flatten := by
    rw [warpAffineRot]
    exact genMat_entry_mem l l _ _ _ hc hc
  have hle := le_sumEntries _ _ hmem (warp_entries_nonneg l α β)
  have hfc : bilerp l (baseLineDetector l)
      (rotSrcX l α β (l / 2) (l / 2)) (rotSrcY l α β (l / 2) (l / 2)) = 1 / l := by
    have hcv := warp_center_value l α β hl
    rw [warpAffineRot, entry_genMat l l _ _ _ hc hc] at hcv
    exact hcv
  rw [hfc] at hle
  have hpos : (0 : ℚ) < 1 / l := by
    apply div_pos one_pos
    exact_mod_cast (by omega : 0 < l)
  linarith

theorem sum_map_div (r : List ℚ) (s : ℚ) : (r.map (· / s)).sum = r.sum / s := by
  induction r with
  | nil => simp
  | cons x xs ih => simp [ih, add_div]

theorem sumEntries_map_div (m : Mat) (s : ℚ) :
    sumEntries (m.map (fun row => row.map (· / s))) = sumEntries m / s := by
  induction m with
  | nil => simp [sumEntries]
  | cons r rs ih =>
      unfold sumEntries at *
      simp only [List.map_cons, List.sum_cons]
      rw [ih, sum_map_div, add_div]

/-- C5: every slice of every mask stack the constructor builds sums to
exactly 1 in the exact-arithmetic model (the claim's floating-point
tolerance): the slice for any rotation `(α, β) = (cos θ, sin θ)` — in
particular every loop angle `θ` — is the warped mask divided by its own
sum, and that sum is positive; and the stacks are immutable after
construction: neither `roc` nor `learn_threshold` (the only operations
that assign to the instance) changes `line_detectors_masks`. -/
theorem line_detector_masks_normalized_and_immutable :
    (∀ (l : ℕ) (α β : ℚ), 1 ≤ l → α ^ 2 + β ^ 2 = 1 →
        sumEntries (lineDetectorSlice l α β) = 1) ∧
      ∀ (st : MSLD) (ds : List Sample),
        (st.roc ds).1.line_detectors_masks = st.line_detectors_masks ∧
          (st.learn_threshold ds).1.line_detectors_masks =
            st.line_detectors_masks := by
  constructor
  · intro l α β hl _
    simp only [lineDetectorSlice]
    rw [sumEntries_map_div]
    exact div_self (ne_of_gt (warp_sum_pos l α β hl))
  · intro st ds
    constructor
    · rw [roc_state_frame]
    · rw [learn_threshold_state_frame]

/-- C5 witness: the slice of scale 3 for the exact unit rotation pair
`(3/5, 4/5)` sums to 1, and a concrete `roc` call leaves the mask
dictionary untouched. -/
theorem line_detector_masks_normalized_witness :
    ((3 : ℚ) / 5) ^ 2 + ((4 : ℚ) / 5) ^ 2 = 1 ∧
      sumEntries (lineDetectorSlice 3 (3 / 5) (4 / 5)) = 1 ∧
      (msldW1.roc dsAllPos).1.line_detectors_masks =
        msldW1.line_detectors_masks :=
  ⟨by norm_num,
    line_detector_masks_normalized_and_immutable.1 3 (3 / 5) (4 / 5)
      (by norm_num) (by norm_num),
    (line_detector_masks_normalized_and_immutable.2 msldW1 dsAllPos).1⟩

/-- C10: every entry of every stored oriented kernel is nonnegative: the
base kernel is nonnegative, the bilinear warp combines nonnegative
source values with nonnegative weights (and a zero border), and the
renormalization divides by the positive mask sum. -/
theorem line_detector_slice_entries_nonneg (l : ℕ) (α β : ℚ) (hl : 1 ≤ l)
    (_hunit : α ^ 2 + β ^ 2 = 1) :
    ∀ x ∈ (lineDetectorSlice l α β).flatten, 0 ≤ x := by
  intro x hx
  simp only [lineDetectorSlice] at hx
  rw [List.mem_flatten] at hx
  obtain ⟨row1, hrow1, hx1⟩ := hx
  rw [List.mem_map] at hrow1
  obtain ⟨row, hrow, rfl⟩ := hrow1
  rw [List.mem_map] at hx1
  obtain ⟨y, hy, rfl⟩ := hx1
  have hynn : 0 ≤ y :=
    warp_entries_nonneg l α β y (List.mem_flatten.mpr ⟨row, hrow, hy⟩)
  exact div_nonneg hynn (le_of_lt (warp_sum_pos l α β hl))

/-- C10 witness: a concrete entry of the concrete rotated slice is
nonnegative. -/
theorem line_detector_slice_entries_nonneg_witness :
    0 ≤ entry (lineDetectorSlice 3 (3 / 5) (4 / 5)) 0 1 :=
  line_detector_slice_entries_nonneg 3 (3 / 5) (4 / 5) (by norm_num)
    (by norm_num) (entry (lineDetectorSlice 3 (3 / 5) (4 / 5)) 0 1)
    (by with_unfolding_all decide)

/-! ### Reduction lemmas for the `Except` monad -/

theorem exceptErrorBind {ε : Type u} {α β : Type v} (e : ε)
    (f : α → Except ε β) : (Except.error e >>= f) = Except.error e := rfl

theorem exceptOkBind {ε : Type u} {α β : Type v} (a : α)
    (f : α → Except ε β) : (Except.ok a >>= f) = f a := rfl

theorem exceptFmapError {ε : Type u} {α β : Type v} (g : α → β) (e : ε) :
    (g <$> (Except.error e : Except ε α)) = Except.error e := rfl

theorem exceptFmapOk {ε : Type u} {α β : Type v} (g : α → β) (a : α) :
    (g <$> (Except.ok a : Except ε α)) = Except.ok (g a) := rfl

theorem exceptPureEq {ε : Type u} {α : Type v} (a : α) :
    (pure a : Except ε α) = Except.ok a := rfl

theorem exceptMapError {ε : Type u} {α β : Type v} (g : α → β) (e : ε) :
    (Except.error e : Except ε α).map g = Except.error e := rfl

theorem exceptMapOk {ε : Type u} {α β : Type v} (g : α → β) (a : α) :
    (Except.ok a : Except ε α).map g = Except.ok (g a) := rfl

/-! ### C1 — the multi-scale combination rule -/

theorem PyF.zeroAdd (x : PyF) : PyF.add (PyF.num 0) x = x := by
  cases x <;> simp [PyF.add]

theorem PyF.addZero (x : PyF) : PyF.add x (PyF.num 0) = x := by
  cases x <;> simp [PyF.add]

theorem PyF.addAssoc (a b c : PyF) :
    PyF.add (PyF.add a b) c = PyF.add a (PyF.add b c) := by
  cases a <;> cases b <;> cases c <;> simp [PyF.add, add_assoc]

theorem zipWith_const_left {g : PyF → PyF → PyF} {w : ℕ} {c : PyF}
    {row : List PyF} (hrow : row.length = w) (hg : ∀ x, g c x = x) :
    List.zipWith g ((List.range w).map (fun _ => c)) row = row := by
  refine List.ext_getElem (by simp [hrow]) ?_
  intro i h1 h2
  simp [List.getElem_zipWith, hg]

theorem zipWith_const_right {g : PyF → PyF → PyF} {w : ℕ} {c : PyF}
    {row : List PyF} (hrow : row.length = w) (hg : ∀ x, g x c = x) :
    List.zipWith g row ((List.range w).map (fun _ => c)) = row := by
  refine List.ext_getElem (by simp [hrow]) ?_
  intro i h1 h2
  simp [List.getElem_zipWith, hg]

theorem matAddP_zerosP_left {h w : ℕ} {m : MatP} (hm : IsRect h w m) :
    matAddP (zerosP h w) m = m := by
  obtain ⟨h1, h2⟩ := hm
  refine List.ext_getElem
    (by simp [matAddP, List.length_zipWith, zerosP, genMat, h1]) ?_
  intro i hi him
  simp only [matAddP, List.getElem_zipWith]
  have hz : ∀ (hlt : i < (zerosP h w).length),
      (zerosP h w)[i] = (List.range w).map (fun _ => PyF.num 0) := by
    intro hlt
    simp [zerosP, genMat]
  rw [hz]
  exact zipWith_const_left (h2 _ (List.getElem_mem _)) PyF.zeroAdd

theorem matAddP_zerosP_right {h w : ℕ} {m : MatP} (hm : IsRect h w m) :
    matAddP m (zerosP h w) = m := by
  obtain ⟨h1, h2⟩ := hm
  refine List.ext_getElem
    (by simp [matAddP, List.length_zipWith, zerosP, genMat, h1]) ?_
  intro i hi him
  simp only [matAddP, List.getElem_zipWith]
  have hz : ∀ (hlt : i < (zerosP h w).length),
      (zerosP h w)[i] = (List.range w).map (fun _ => PyF.num 0) := by
    intro hlt
    simp [zerosP, genMat]
  rw [hz]
  exact zipWith_const_right (h2 _ (List.getElem_mem _)) PyF.addZero

theorem matAddP_assoc (a b c : MatP) :
    matAddP (matAddP a b) c = matAddP a (matAddP b c) := by
  refine List.ext_getElem (by simp [matAddP, min_assoc]) ?_
  intro i h1 h2
  simp only [matAddP, List.getElem_zipWith]
  refine List.ext_getElem (by simp [min_assoc]) ?_
  intro j g1 g2
  simp [List.getElem_zipWith, PyF.addAssoc]

theorem fold_matMaxQ_isRect (grey : Mat) (stack : List Mat) (ls : List ℕ) :
    ∀ acc : Mat, IsRect grey.length (matW grey) acc →
      IsRect grey.length (matW grey)
        (ls.foldl (fun acc n => matMaxQ (conv grey (stack.getD n [])) acc) acc) := by
  induction ls with
  | nil => exact fun acc hacc => hacc
  | cons a as ih =>
      intro acc hacc
      rw [List.foldl_cons]
      exact ih _ (zipWith_isRect max (conv_isRect grey _) hacc)

/-- Every successful `basic_line_detector` response has the spatial shape
of its input map. -/
theorem basic_line_detector_isRect (st : MSLD) (image : Mat) (L : ℕ) (r : MatP)
    (hb : st.basic_line_detector image L = .ok r) :
    IsRect image.length (matW image) r := by
  simp only [MSLD.basic_line_detector] at hb
  split at hb
  · exact absurd hb (by simp)
  · split at hb
    · split at hb
      · rw [Except.ok.injEq] at hb
        rw [← hb]
        exact genMat_isRect _ _ _
      · split at hb
        · exact absurd hb (by simp)
        · rw [Except.ok.injEq] at hb
          rw [← hb]
          exact map_isRect _
            (zipWith_isRect _
              (fold_matMaxQ_isRect image _ _ _ (zerosQ_isRect _ _))
              (conv_isRect image st.avg_mask))
    · exact absurd hb (by simp)

theorem mapM_bld_all_rect (st : MSLD) (image : Mat) :
    ∀ (ls : List ℕ) (rs : List MatP),
      ls.mapM (st.basic_line_detector image) = .ok rs →
      ∀ r ∈ rs, IsRect image.length (matW image) r := by
  intro ls
  induction ls with
  | nil =>
      intro rs h r hr
      simp only [List.mapM_nil] at h
      rw [show (pure [] : Except PyErr (List MatP)) = .ok [] from rfl,
        Except.ok.injEq] at h
      rw [← h] at hr
      exact absurd hr (by simp)
  | cons a as ih =>
      intro rs h r hr
      rw [List.mapM_cons] at h
      cases hba : st.basic_line_detector image a with
      | error e =>
          rw [hba] at h
          simp only [exceptErrorBind, exceptFmapError] at h
          exact absurd h (by simp)
      | ok b =>
          rw [hba] at h
          simp only [exceptOkBind] at h
          cases hm : as.mapM (st.basic_line_detector image) with
          | error e =>
              rw [hm] at h
              simp only [exceptErrorBind, exceptFmapError] at h
              exact absurd h (by simp)
          | ok bs =>
              rw [hm] at h
              simp only [exceptOkBind, exceptFmapOk, exceptPureEq,
                Except.ok.injEq] at h
              rw [← h] at hr
              rcases List.mem_cons.mp hr with rfl | hrbs
              · exact basic_line_detector_isRect st image a r hba
              · exact ih bs hm r hrbs

theorem foldr_matAddP_isRect (h w : ℕ) (rs : List MatP)
    (hall : ∀ r ∈ rs, IsRect h w r) :
    IsRect h w (rs.foldr matAddP (zerosP h w)) := by
  induction rs with
  | nil => exact zerosP_isRect h w
  | cons r rs ih =>
      rw [List.foldr_cons]
      exact zipWith_isRect _ (hall r (by simp))
        (ih (fun x hx => hall x (by simp [hx])))

/-- The code's accumulation loop
(`Rcombined = zeros; Rcombined += bld(image, L[i])`) equals summing the
individually computed per-scale responses. -/
theorem foldlM_bld_eq (st : MSLD) (image : Mat) :
    ∀ (ls : List ℕ) (acc : MatP), IsRect image.length (matW image) acc →
      ls.foldlM (fun acc l =>
          (st.basic_line_detector image l).map (fun r => matAddP acc r)) acc =
        (ls.mapM (st.basic_line_detector image)).map
          (fun rs => matAddP acc
            (rs.foldr matAddP (zerosP image.length (matW image)))) := by
  intro ls
  induction ls with
  | nil =>
      intro acc hacc
      rw [List.foldlM_nil, List.mapM_nil, exceptPureEq, exceptPureEq,
        exceptMapOk, List.foldr_nil, matAddP_zerosP_right hacc]
  | cons a as ih =>
      intro acc hacc
      rw [List.foldlM_cons, List.mapM_cons]
      cases hba : st.basic_line_detector image a with
      | error e =>
          simp [hba, exceptMapError, exceptErrorBind, exceptFmapError]
      | ok b =>
          have hbrect := basic_line_detector_isRect st image a b hba
          simp only [hba, exceptMapOk, exceptOkBind]
          rw [ih (matAddP acc b) (zipWith_isRect _ hacc hbrect)]
          cases hm : as.mapM (st.basic_line_detector image) with
          | error e =>
              simp [hm, exceptMapError, exceptErrorBind, exceptFmapError]
          | ok bs =>
              simp [hm, exceptMapOk, exceptOkBind, exceptFmapOk, exceptPureEq,
                List.foldr_cons, matAddP_assoc]

/-- C1: `multi_scale_line_detector(image)` returns
`(1/(n_orientation+1)) * (Σ_{l ∈ L} basic_line_detector(image, l) + image)`:
the per-scale BLD responses are summed over `L`, the raw image is added
as one extra term, and the whole sum is scaled by `1/(n_orientation+1)` —
the code's in-place accumulation loop agrees with the spec's closed
formula on every input and every configuration (including the error
cases, which agree on both sides). -/
theorem multi_scale_line_detector_eq_combination_formula (st : MSLD) (image : Mat) :
    st.multi_scale_line_detector image = multiScaleCombinationFormula st image := by
  simp only [MSLD.multi_scale_line_detector, multiScaleCombinationFormula]
  rw [foldlM_bld_eq st image st.L _ (zerosP_isRect _ _)]
  cases hm : st.L.mapM (st.basic_line_detector image) with
  | error e => simp [hm, Except.map]
  | ok rs =>
      have hall := mapM_bld_all_rect st image st.L rs hm
      simp only [hm, Except.map, Except.ok.injEq]
      rw [matAddP_zerosP_left (foldr_matAddP_isRect _ _ rs hall)]

/-! ### C2 — threshold learning -/

theorem npArgmaxGo_num (qs : List ℚ) :
    ∀ (b : ℚ) (bi i : ℕ),
      npArgmaxGo (PyF.num b) bi i (qs.map PyF.num) = argmaxQGo b bi i qs := by
  induction qs with
  | nil => intro b bi i; rfl
  | cons x xs ih =>
      intro b bi i
      simp only [List.map_cons, npArgmaxGo, argmaxQGo]
      rw [if_neg (by simp), if_neg (by simp)]
      by_cases hbx : b < x
      · rw [if_pos (by simp [PyF.lt, hbx]), if_pos hbx, ih]
      · rw [if_neg (by simp [PyF.lt, hbx]), if_neg hbx, ih]

theorem npArgmax_map_num (qs : List ℚ) :
    npArgmax (qs.map PyF.num) = firstMaxIdx qs := by
  cases qs with
  | nil => rfl
  | cons x xs => simp only [List.map_cons, npArgmax, firstMaxIdx, npArgmaxGo_num]

theorem argmaxQGo_spec (l : List ℚ) :
    ∀ (xs : List ℚ) (q : ℚ) (bi i : ℕ),
      i + xs.length = l.length →
      (∀ k, k < xs.length → l.getD (i + k) 0 = xs.getD k 0) →
      bi < i →
      l.getD bi 0 = q →
      (∀ j, j < i → l.getD j 0 ≤ q) →
      (∀ j, j < bi → l.getD j 0 < q) →
      argmaxQGo q bi i xs < l.length ∧
        (∀ j, j < l.length → l.getD j 0 ≤ l.getD (argmaxQGo q bi i xs) 0) ∧
        (∀ j, j < argmaxQGo q bi i xs → l.getD j 0 < l.getD (argmaxQGo q bi i xs) 0) := by
  intro xs
  induction xs with
  | nil =>
      intro q bi i hlen hk hbi hq hle hlt
      simp only [List.length_nil, Nat.add_zero] at hlen
      simp only [argmaxQGo]
      refine ⟨by omega, ?_, ?_⟩
      · intro j hj
        rw [hq]
        exact hle j (by omega)
      · intro j hj
        rw [hq]
        exact hlt j hj
  | cons x xs ih =>
      intro q bi i hlen hk hbi hq hle hlt
      have hx : l.getD i 0 = x := by
        have h0 := hk 0 (by simp)
        simpa using h0
      simp only [argmaxQGo]
      by_cases hqx : q < x
      · rw [if_pos hqx]
        refine ih x i (i + 1) (by simp at hlen; omega) ?_ (by omega) hx ?_ ?_
        · intro k hkx
          have := hk (k + 1) (by simp; omega)
          rw [show i + (k + 1) = i + 1 + k by omega] at this
          simpa using this
        · intro j hj
          rcases Nat.lt_or_ge j i with h | h
          · exact le_of_lt (lt_of_le_of_lt (hle j h) hqx)
          · have : j = i := by omega
            rw [this, hx]
        · intro j hj
          exact lt_of_le_of_lt (hle j hj) hqx
      · rw [if_neg hqx]
        refine ih q bi (i + 1) (by simp at hlen; omega) ?_ (by omega) hq ?_ hlt
        · intro k hkx
          have := hk (k + 1) (by simp; omega)
          rw [show i + (k + 1) = i + 1 + k by omega] at this
          simpa using this
        · intro j hj
          rcases Nat.lt_or_ge j i with h | h
          · exact hle j h
          · have : j = i := by omega
            rw [this, hx]
            exact le_of_not_lt hqx

/-- The index `firstMaxIdx` is in range, attains the maximum, and is the first
index to do so. -/
theorem firstMaxIdx_spec (qs : List ℚ) (hne : qs ≠ []) :
    firstMaxIdx qs < qs.length ∧
      (∀ j, j < qs.length → qs.getD j 0 ≤ qs.getD (firstMaxIdx qs) 0) ∧
      (∀ j, j < firstMaxIdx qs → qs.getD j 0 < qs.getD (firstMaxIdx qs) 0) := by
  cases qs with
  | nil => exact absurd rfl hne
  | cons x xs =>
      simp only [firstMaxIdx]
      refine argmaxQGo_spec (x :: xs) xs x 0 1 (by simp [Nat.add_comm]) ?_ (by omega) (by simp) ?_ ?_
      · intro k hkx
        rw [show 1 + k = k + 1 by omega]
        simp
      · intro j hj
        have : j = 0 := by omega
        rw [this]
        simp
      · intro j hj
        omega

theorem mapM_pairs_fst (st : MSLD) :
    ∀ (ds : List Sample) (pairs : List (List Bool × List PyF)),
      ds.mapM (fun d =>
          (st.multi_scale_line_detector d.image).map
            (fun pred => (maskSelB d.label d.mask, maskSelP pred d.mask))) =
        .ok pairs →
      pairs.map (fun p => p.1) = ds.map (fun d => maskSelB d.label d.mask) := by
  intro ds
  induction ds with
  | nil =>
      intro pairs h
      simp only [List.mapM_nil, exceptPureEq, Except.ok.injEq] at h
      rw [← h]
      rfl
  | cons d rest ih =>
      intro pairs h
      rw [List.mapM_cons] at h
      cases hmd : st.multi_scale_line_detector d.image with
      | error e =>
          rw [hmd] at h
          simp only [exceptMapError, exceptErrorBind, exceptFmapError] at h
          exact absurd h (by simp)
      | ok pred =>
          rw [hmd] at h
          simp only [exceptMapOk, exceptOkBind] at h
          cases hmr : rest.mapM (fun d =>
              (st.multi_scale_line_detector d.image).map
                (fun pred => (maskSelB d.label d.mask, maskSelP pred d.mask))) with
          | error e =>
              rw [hmr] at h
              simp only [exceptErrorBind, exceptFmapError] at h
              exact absurd h (by simp)
          | ok ps =>
              rw [hmr] at h
              simp only [exceptOkBind, exceptFmapOk, exceptPureEq,
                Except.ok.injEq] at h
              rw [← h, List.map_cons, List.map_cons, ih ps hmr]

/-- When `roc` succeeds, the label cache it stored is exactly the
concatenated ROI labels of the dataset. -/
theorem roc_y_true_of_ok (st : MSLD) (ds : List Sample)
    (res : List PyF × List PyF × List PyF)
    (h : (st.roc ds).2 = .ok res) :
    (st.roc ds).1.y_true = some (rocLabels ds) := by
  unfold MSLD.roc at *
  cases ds with
  | nil => exact absurd h (by simp)
  | cons d rest =>
      cases hm : (d :: rest).mapM (fun d =>
          (st.multi_scale_line_detector d.image).map
            (fun pred => (maskSelB d.label d.mask, maskSelP pred d.mask))) with
      | error e =>
          rw [hm] at h
          exact absurd h (by simp)
      | ok pairs =>
          simp only [hm]
          rw [rocLabels, ← mapM_pairs_fst st (d :: rest) pairs hm]

theorem countTrue_le (xs : List Bool) : countTrue xs ≤ xs.length :=
  List.length_filter_le _ _

theorem getD_map_num (qs : List ℚ) (i : ℕ) (hi : i < qs.length) :
    (qs.map PyF.num).getD i PyF.nan = PyF.num (qs.getD i 0) := by
  rw [List.getD_eq_getElem?_getD, List.getElem?_map, List.getD_eq_getElem?_getD]
  cases h : qs[i]? with
  | none =>
      rw [List.getElem?_eq_none_iff] at h
      omega
  | some q => simp

theorem PyF.subNum (a b : ℚ) :
    PyF.sub (PyF.num a) (PyF.num b) = PyF.num (a - b) := by
  simp [PyF.sub, PyF.neg, PyF.add, sub_eq_add_neg]

/-- On a nan-free curve the accuracy vector the code computes is the
claim's formula, entrywise: with `P` positives, `N = n - P` negatives
and `n = P + N > 0` labelled pixels,
`(tpr_i * P + (1 - fpr_i) * (n - P)) / n = (tpr_i * P + (1 - fpr_i) * N) / (P + N)`. -/
theorem accuracies_eq (tq fq : List ℚ) (P n : ℕ) (hPn : P ≤ n) (hn : n ≠ 0) :
    ((tq.map PyF.num).zip (fq.map PyF.num)).map (fun p =>
        PyF.div
          (PyF.add (PyF.mul p.1 (PyF.num (P : ℚ)))
            (PyF.mul (PyF.sub (PyF.num 1) p.2) (PyF.num ((n : ℚ) - (P : ℚ)))))
          (PyF.num (n : ℚ))) =
      ((tq.zip fq).map (fun p =>
        (p.1 * (P : ℚ) + (1 - p.2) * (((n - P : ℕ)) : ℚ)) /
          ((P : ℚ) + (((n - P : ℕ)) : ℚ)))).map PyF.num := by
  rw [List.zip_map, List.map_map, List.map_map]
  refine List.map_congr_left (fun p _ => ?_)
  have hsub : (((n - P : ℕ)) : ℚ) = (n : ℚ) - (P : ℚ) := Nat.cast_sub hPn
  have hcast : (P : ℚ) + (((n - P : ℕ)) : ℚ) = (n : ℚ) := by
    rw [hsub]
    ring
  simp only [Function.comp_apply, Prod.map_fst, Prod.map_snd, PyF.mul,
    PyF.subNum, PyF.add, PyF.div, hcast, hsub]
  rw [if_neg (by exact_mod_cast hn)]
  rw [show (P : ℚ) + ((n : ℚ) - (P : ℚ)) = (n : ℚ) from by ring]

/-- C2: when `roc` succeeds on the dataset with a nan-free curve
`(fpr, tpr, thresholds)`, `learn_threshold` computes, for each ROC
point, `accuracy_i = (tpr_i * P + (1 - fpr_i) * N) / (P + N)` where `P`
is the count of positive ROI pixels and `N` the count of negative ROI
pixels over the dataset; it selects the first index attaining the
maximum accuracy, stores `thresholds[i*]` in `self.threshold` and
returns `(thresholds[i*], accuracy_i*)`. -/
theorem learn_threshold_first_argmax_accuracy (st st1 : MSLD)
    (ds : List Sample) (fq tq : List ℚ) (thr : List PyF)
    (P N : ℕ) (acc : List ℚ)
    (hroc : st.roc ds = (st1, .ok (fq.map PyF.num, tq.map PyF.num, thr)))
    (hlen : tq.length = fq.length) (hne : tq ≠ [])
    (hyne : rocLabels ds ≠ [])
    (hP : P = countTrue (rocLabels ds))
    (hN : N = (rocLabels ds).length - P)
    (hacc : acc = (tq.zip fq).map (fun p =>
      (p.1 * (P : ℚ) + (1 - p.2) * (N : ℚ)) / ((P : ℚ) + (N : ℚ)))) :
    firstMaxIdx acc < acc.length ∧
      (∀ j, j < acc.length → acc.getD j 0 ≤ acc.getD (firstMaxIdx acc) 0) ∧
      (∀ j, j < firstMaxIdx acc → acc.getD j 0 < acc.getD (firstMaxIdx acc) 0) ∧
      st.learn_threshold ds =
        ({ st1 with threshold := thr.getD (firstMaxIdx acc) PyF.nan },
          .ok (thr.getD (firstMaxIdx acc) PyF.nan,
            PyF.num (acc.getD (firstMaxIdx acc) 0))) := by
  have hacclen : acc.length = tq.length := by
    rw [hacc, List.length_map, List.length_zip, hlen, min_self]
  have haccne : acc ≠ [] := by
    intro h0
    apply hne
    have h1 : tq.length = 0 := by rw [← hacclen, h0]; rfl
    exact List.eq_nil_of_length_eq_zero h1
  have hspec := firstMaxIdx_spec acc haccne
  refine ⟨hspec.1, hspec.2.1, hspec.2.2, ?_⟩
  have hyt : st1.y_true = some (rocLabels ds) := by
    have h1 := roc_y_true_of_ok st ds (fq.map PyF.num, tq.map PyF.num, thr)
      (by rw [hroc])
    rwa [hroc] at h1
  have hn0 : (rocLabels ds).length ≠ 0 := fun h =>
    hyne (List.eq_nil_of_length_eq_zero h)
  have hPle : countTrue (rocLabels ds) ≤ (rocLabels ds).length := countTrue_le _
  simp only [MSLD.learn_threshold, hroc, hyt, Option.getD_some]
  rw [accuracies_eq tq fq (countTrue (rocLabels ds)) (rocLabels ds).length
    hPle hn0]
  rw [show ((tq.zip fq).map (fun p =>
      (p.1 * (countTrue (rocLabels ds) : ℚ) +
        (1 - p.2) * ((((rocLabels ds).length - countTrue (rocLabels ds) : ℕ)) : ℚ)) /
        ((countTrue (rocLabels ds) : ℚ) +
          ((((rocLabels ds).length - countTrue (rocLabels ds) : ℕ)) : ℚ)))) = acc
    from by rw [hacc, hN, hP]]
  rw [if_neg (by simp [haccne]), npArgmax_map_num,
    getD_map_num acc (firstMaxIdx acc) (hspec.1)]

/-- C2 witness: on the two-class dataset `dsMixed` the accuracy vector
is `[1/2, 0, 1/2]`; the first maximum is taken, the matching threshold
is stored and returned together with that accuracy. -/
theorem learn_threshold_first_argmax_accuracy_witness :
    msldW1.learn_threshold dsMixed =
      ({ (msldW1.roc dsMixed).1 with
          threshold := [PyF.inf, PyF.num (1 / 2), PyF.num 0].getD
            (firstMaxIdx [1 / 2, 0, 1 / 2]) PyF.nan },
        .ok ([PyF.inf, PyF.num (1 / 2), PyF.num 0].getD
            (firstMaxIdx [1 / 2, 0, 1 / 2]) PyF.nan,
          PyF.num (([1 / 2, 0, 1 / 2] : List ℚ).getD
            (firstMaxIdx [1 / 2, 0, 1 / 2]) 0))) :=
  (learn_threshold_first_argmax_accuracy msldW1 (msldW1.roc dsMixed).1 dsMixed
    [0, 1, 1] [0, 0, 1] [PyF.inf, PyF.num (1 / 2), PyF.num 0] 1 1
    [1 / 2, 0, 1 / 2]
    (by with_unfolding_all decide) (by decide) (by decide)
    (by with_unfolding_all decide) (by with_unfolding_all decide)
    (by with_unfolding_all decide) (by with_unfolding_all decide)).2.2.2
